import Mathlib

/-!
Verification of the virtual project store ("ProjectTree" / `VirtualFileSystem`)
and its two tool protocols: the `str_replace_editor` edit-operation protocol
(view / create / str_replace / insert / undo_edit) and the `file_manager`
entry-operation protocol (rename / delete).

The repository ships the unit-test suites for `VirtualFileSystem`,
`buildStrReplaceTool` and `buildFileManagerTool`, but not the implementation
modules themselves (`@/lib/file-system`, `@/lib/tools/str-replace`,
`@/lib/tools/file-manager`).  The definitions below are therefore modelled
from the specification (sections 3, 4.1, 4.2, 4.3 and 6), following the
spec's own persistence contract: a tree is determined by its flat,
insertion-ordered mapping from normalized absolute path to node, where a
normalized path is its list of non-empty `/`-separated segments.
-/

/-- Splits a character list at every occurrence of the separator `c`.
The result is never empty; `n` separators yield `n + 1` chunks. -/
def splitOnCharL (c : Char) : List Char → List (List Char)
  | [] => [[]]
  | ch :: rest =>
    match splitOnCharL c rest with
    | [] => [[]]
    | l :: ls => if ch = c then [] :: l :: ls else (ch :: l) :: ls

/-- Removes the empty strings from a list of strings. -/
def dropEmpty : List String → List String
  | [] => []
  | s :: rest => if s = "" then dropEmpty rest else s :: dropEmpty rest

/-- Modelled from the spec: path normalization of the missing
`VirtualFileSystem`.  A path string is reduced to its list of non-empty
`/`-separated segments; duplicate separators collapse and a leading slash is
immaterial, so `"test.txt"`, `"/test.txt"` and `"//test.txt"` all yield
`["test.txt"]`.  The segment list is the canonical key used by every
operation (spec section 3: "path is the sole external identity"). -/
def pathSegments (p : String) : List String :=
  dropEmpty ((splitOnCharL '/' p.data).map String.mk)

/-- Joins path segments back into a normalized absolute path, each segment
preceded by one `/`. -/
def joinSegsAux : List String → String
  | [] => ""
  | s :: rest => "/" ++ s ++ joinSegsAux rest

/-- The normalized absolute path of a segment-list key (`"/"` for the root). -/
def joinPath (k : List String) : String :=
  match k with
  | [] => "/"
  | s :: rest => joinSegsAux (s :: rest)

/-- Modelled from the spec: the internal canonical form of a caller-supplied
path (spec section 9: the normalized canonical path used as the tree lookup
key, as opposed to the caller-facing raw string). -/
def normalizePath (p : String) : String :=
  joinPath (pathSegments p)

/-- Modelled from the spec: the `Node` tagged union of the missing
`VirtualFileSystem` (spec section 3), restricted to what the flat
representation stores per key: a file's text content, or a directory marker.
`name` and `path` are derived from the key. -/
inductive FSNode where
  | file (content : String)
  | directory
deriving DecidableEq, Repr

instance : Inhabited FSNode := ⟨FSNode.directory⟩

/-- First entry with the given key in an insertion-ordered association list. -/
def findEntry (k : List String) : List (List String × FSNode) → Option FSNode
  | [] => none
  | e :: rest => if e.1 = k then some e.2 else findEntry k rest

/-- Replaces the value stored at a key, leaving the list unchanged elsewhere. -/
def setEntry (k : List String) (n : FSNode) :
    List (List String × FSNode) → List (List String × FSNode)
  | [] => []
  | e :: rest => if e.1 = k then (e.1, n) :: rest else e :: setEntry k n rest

/-- `keyStarts p k` holds when the key `k` starts with the segments `p`,
i.e. the node at `k` is the node at `p` itself or one of its descendants. -/
def keyStarts : List String → List String → Bool
  | [], _ => true
  | _ :: _, [] => false
  | a :: as, b :: bs => if a = b then keyStarts as bs else false

/-- The proper non-empty ancestors of a key, shortest first:
`properPrefixes [a, b, c] = [[a], [a, b]]`. -/
def properPrefixes : List String → List (List String)
  | [] => []
  | s :: rest =>
    match rest with
    | [] => []
    | _ :: _ => [s] :: (properPrefixes rest).map (fun a => s :: a)

/-- The ancestors of `k` that have no entry yet, shortest first — exactly the
directories that ancestor auto-creation must add. -/
def missingAncestors (entries : List (List String × FSNode)) (k : List String) :
    List (List String) :=
  (properPrefixes k).filter fun a => (findEntry a entries).isNone

/-- The entry list after relocating the subtree rooted at key `ko` to key
`kn` (spec 4.1 `move`): the source subtree is detached, the destination's
missing ancestor directories are created against the remaining tree, and
every detached entry is re-keyed under `kn`, contents untouched. -/
def renameEntries (entries : List (List String × FSNode)) (ko kn : List String) :
    List (List String × FSNode) :=
  let kept := entries.filter fun e => !(keyStarts ko e.1)
  let moved := (entries.filter fun e => keyStarts ko e.1).map
    fun e => (kn ++ e.1.drop ko.length, e.2)
  kept ++ (missingAncestors kept kn).map (fun a => (a, FSNode.directory)) ++ moved

/-- Modelled from the spec: the missing in-memory `VirtualFileSystem`
(`ProjectTree`, spec section 4.1), represented by its serialized contract
(spec sections 3 and 6): the flat insertion-ordered mapping from normalized
path key to node, root excluded (the root directory always exists and can
never be created, renamed or deleted). -/
structure VirtualFileSystem where
  entries : List (List String × FSNode)
deriving DecidableEq, Repr

namespace VirtualFileSystem

/-- Modelled from the spec: node lookup of the missing `VirtualFileSystem`.
The root resolves to a directory; any other path resolves through the flat
mapping under its normalized key. -/
def getNode (fs : VirtualFileSystem) (p : String) : Option FSNode :=
  match pathSegments p with
  | [] => some FSNode.directory
  | s :: rest => findEntry (s :: rest) fs.entries

/-- Modelled from the spec: `exists(path) -> bool` (spec section 4.1). -/
def existsPath (fs : VirtualFileSystem) (p : String) : Bool :=
  (fs.getNode p).isSome

/-- Result of `readFile`: the content, or the `NotFound` / `IsDirectory`
failure of spec section 4.1. -/
inductive ReadResult where
  | ok (content : String)
  | notFound
  | isDirectory
deriving DecidableEq, Repr

/-- Modelled from the spec: `readFile(path) -> content`, failing with
`NotFound` if absent and `IsDirectory` if the path is a directory. -/
def readFile (fs : VirtualFileSystem) (p : String) : ReadResult :=
  match fs.getNode p with
  | none => ReadResult.notFound
  | some FSNode.directory => ReadResult.isDirectory
  | some (FSNode.file c) => ReadResult.ok c

/-- Modelled from the spec: `createFile(path, content)` — fails with
`AlreadyExists` (`none`) if the exact path exists, otherwise auto-creates
every missing ancestor directory and appends the new file (spec 4.1). -/
def createFile (fs : VirtualFileSystem) (p : String) (content : String) :
    Option VirtualFileSystem :=
  match pathSegments p with
  | [] => none
  | s :: rest =>
    if (findEntry (s :: rest) fs.entries).isSome then none
    else some ⟨fs.entries
      ++ (missingAncestors fs.entries (s :: rest)).map (fun a => (a, FSNode.directory))
      ++ [(s :: rest, FSNode.file content)]⟩

/-- Modelled from the spec: `createDirectory(path)` — same contract as
`createFile` but storing a directory node (spec 4.1). -/
def createDirectory (fs : VirtualFileSystem) (p : String) :
    Option VirtualFileSystem :=
  match pathSegments p with
  | [] => none
  | s :: rest =>
    if (findEntry (s :: rest) fs.entries).isSome then none
    else some ⟨fs.entries
      ++ (missingAncestors fs.entries (s :: rest)).map (fun a => (a, FSNode.directory))
      ++ [(s :: rest, FSNode.directory)]⟩

/-- Overwrites the node stored at an existing key with new file content; used
by `str_replace` and `insert` after they have checked the path is a file. -/
def setFile (fs : VirtualFileSystem) (k : List String) (content : String) :
    VirtualFileSystem :=
  ⟨setEntry k (FSNode.file content) fs.entries⟩

/-- Modelled from the spec: `delete(path)` — removes a file or a directory
and everything beneath it; fails (`none`) on `NotFound` and rejects deleting
the root `/` (spec 4.1). -/
def deleteNode (fs : VirtualFileSystem) (p : String) : Option VirtualFileSystem :=
  match pathSegments p with
  | [] => none
  | s :: rest =>
    if (findEntry (s :: rest) fs.entries).isSome then
      some ⟨fs.entries.filter fun e => !(keyStarts (s :: rest) e.1)⟩
    else none

/-- Modelled from the spec: `move(oldPath, newPath)` — relocates a node and
its whole subtree, auto-creating destination ancestors; fails (`none`) if the
destination already exists, the source is `/`, or the source does not exist
(spec 4.1).  As in the described implementation the source subtree is
detached first and the missing destination ancestors are then created
against the remaining tree. -/
def move (fs : VirtualFileSystem) (oldPath newPath : String) :
    Option VirtualFileSystem :=
  match pathSegments oldPath with
  | [] => none
  | s :: rest =>
    if (findEntry (s :: rest) fs.entries).isNone || fs.existsPath newPath then none
    else some ⟨renameEntries fs.entries (s :: rest) (pathSegments newPath)⟩

/-- Modelled from the spec: `list(path)` — the immediate children of a
directory in insertion order, each with its name and whether it is a
directory (spec 4.1). -/
def list (fs : VirtualFileSystem) (p : String) : List (String × Bool) :=
  let k := pathSegments p
  fs.entries.filterMap fun e =>
    if decide (e.1.length = k.length + 1) && keyStarts k e.1 then
      some (e.1.getLastD "",
        match e.2 with
        | FSNode.directory => true
        | FSNode.file _ => false)
    else none

end VirtualFileSystem

/-- Modelled from the spec: the serialized node descriptor of the missing
persistence contract — `{type: "file"|"directory", name, path, content?}`
(spec section 6). -/
structure NodeDescriptor where
  type : String
  name : String
  path : String
  content : Option String
deriving DecidableEq, Repr

/-- The descriptor serialized for the node stored at key `k`. -/
def nodeDescriptor (k : List String) (n : FSNode) : NodeDescriptor :=
  match n with
  | FSNode.file c => ⟨"file", k.getLastD "/", joinPath k, some c⟩
  | FSNode.directory => ⟨"directory", k.getLastD "/", joinPath k, none⟩

/-- Modelled from the spec: `serialize() -> flat path->descriptor mapping`
(spec 4.1 / 6): the root descriptor followed by one descriptor per node,
keyed by absolute path, in insertion order. -/
def VirtualFileSystem.serialize (fs : VirtualFileSystem) :
    List (String × NodeDescriptor) :=
  ("/", ⟨"directory", "/", "/", none⟩)
    :: fs.entries.map fun e => (joinPath e.1, nodeDescriptor e.1 e.2)

/-- Modelled from the spec: `deserialize(mapping) -> ProjectTree` (spec 4.1):
rebuilds the tree from a flat mapping, taking each non-root entry's node type
from `type` and a file's text from `content` (empty when absent). -/
def VirtualFileSystem.deserialize (m : List (String × NodeDescriptor)) :
    VirtualFileSystem :=
  ⟨m.filterMap fun e =>
    match pathSegments e.1 with
    | [] => none
    | s :: rest =>
      some (s :: rest,
        if e.2.type = "file" then FSNode.file (e.2.content.getD "")
        else FSNode.directory)⟩


/-- `matchesAt pat s` holds when `pat` is an initial run of `s`. -/
def matchesAt : List Char → List Char → Bool
  | [], _ => true
  | _ :: _, [] => false
  | a :: as, b :: bs => if a = b then matchesAt as bs else false

/-- Modelled from the spec: the occurrence count used by the missing
`str_replace` handler — the number of non-overlapping, left-to-right exact
occurrences of `pat` in `s`, where the empty pattern is defined to never
match (spec 4.2). -/
def countOcc (pat : List Char) : List Char → Nat
  | [] => 0
  | c :: rest =>
    if pat ≠ [] ∧ matchesAt pat (c :: rest) = true then
      1 + countOcc pat (rest.drop (pat.length - 1))
    else countOcc pat rest
termination_by s => s.length
decreasing_by
  · simp [List.length_drop]; omega
  · simp

/-- Modelled from the spec: the replacement used by the missing `str_replace`
handler — every non-overlapping, left-to-right occurrence of `pat` is
replaced by `rep`; the empty pattern never matches, so the text is returned
unchanged (spec 4.2). -/
def replaceAll (pat rep : List Char) : List Char → List Char
  | [] => []
  | c :: rest =>
    if pat ≠ [] ∧ matchesAt pat (c :: rest) = true then
      rep ++ replaceAll pat rep (rest.drop (pat.length - 1))
    else c :: replaceAll pat rep rest
termination_by s => s.length
decreasing_by
  · simp [List.length_drop]; omega
  · simp

/-- `containsSub pat s` holds when `pat` occurs as a contiguous substring of
`s` at some position (the occurrence predicate independent of the scanning
order used by `countOcc`). -/
def containsSub (pat : List Char) : List Char → Bool
  | [] => matchesAt pat []
  | c :: rest => matchesAt pat (c :: rest) || containsSub pat rest

/-- Modelled from the spec: line splitting of the missing editor — a file's
content split at every newline, so the empty content is the single empty
line (spec 4.2 `insert`, `view`). -/
def splitLines (c : String) : List String :=
  (splitOnCharL '\n' c.data).map String.mk

/-- Joins strings with a separator (`join` after interleaving `sep`). -/
def joinWith (sep : String) : List String → String
  | [] => ""
  | [l] => l
  | l :: l2 :: ls => l ++ sep ++ joinWith sep (l2 :: ls)

/-- Pairs every list element with its position, counting from `i`. -/
def numberFrom (i : Nat) : List String → List (Nat × String)
  | [] => []
  | l :: ls => (i, l) :: numberFrom (i + 1) ls

/-- Modelled from the spec: the numbered lines produced by `view` on a file —
every line prefixed with its 1-based number and a tab, optionally restricted
to the inclusive `[start, end]` line-number range (spec 4.2). -/
def viewFileLines (c : String) (range : Option (Int × Int)) : List String :=
  let ls := numberFrom 1 (splitLines c)
  let sel := match range with
    | none => ls
    | some se => ls.filter fun e =>
        decide ((se.1 : Int) ≤ (e.1 : Int)) && decide ((e.1 : Int) ≤ se.2)
  sel.map fun e => toString e.1 ++ "\t" ++ e.2

/-- Modelled from the spec: the `view` command of the missing
`str_replace_editor` tool — numbered file lines, `[DIR]`/`[FILE]`-tagged
directory children (or the `(empty directory)` marker), and the
`File not found: <path>` message without an `Error:` prefix (spec 4.2). -/
def viewCmd (fs : VirtualFileSystem) (path : String) (range : Option (Int × Int)) :
    String :=
  match fs.getNode path with
  | some (FSNode.file c) => joinWith "\n" (viewFileLines c range)
  | some FSNode.directory =>
    let ch := fs.list path
    if ch.isEmpty then "(empty directory)"
    else joinWith "\n" (ch.map fun e =>
      (if e.2 then "[DIR] " else "[FILE] ") ++ e.1)
  | none => "File not found: " ++ path

/-- Modelled from the spec: the command dispatch of the missing
`buildStrReplaceTool` (`str_replace_editor`, spec 4.2 and 6).  Every command
returns a human-readable result string (success or `Error: …`) next to the
resulting tree; expected failures never mutate.  All result messages echo
the caller's raw `path` verbatim while lookups go through `pathSegments`. -/
def strReplaceExecute (fs : VirtualFileSystem) (command path : String)
    (view_range : Option (Int × Int)) (file_text old_str new_str : Option String)
    (insert_line : Option Int) : String × VirtualFileSystem :=
  if command = "view" then (viewCmd fs path view_range, fs)
  else if command = "create" then
    match fs.createFile path (file_text.getD "") with
    | none => ("Error: File already exists: " ++ path, fs)
    | some fs' => ("File created: " ++ path, fs')
  else if command = "str_replace" then
    match fs.getNode path with
    | none => ("Error: File not found: " ++ path, fs)
    | some FSNode.directory => ("Error: Cannot edit a directory: " ++ path, fs)
    | some (FSNode.file c) =>
      let old := old_str.getD ""
      let nw := new_str.getD ""
      let n := countOcc old.data c.data
      if n = 0 then ("Error: String not found in file: \"" ++ old ++ "\"", fs)
      else ("Replaced " ++ toString n ++ " occurrence(s) of the string in " ++ path,
        fs.setFile (pathSegments path) (String.mk (replaceAll old.data nw.data c.data)))
  else if command = "insert" then
    match fs.getNode path with
    | none => ("Error: File not found: " ++ path, fs)
    | some FSNode.directory => ("Error: Cannot edit a directory: " ++ path, fs)
    | some (FSNode.file c) =>
      let n : Int := insert_line.getD 0
      let text := new_str.getD ""
      let lines := splitLines c
      if n < 0 ∨ (lines.length : Int) < n then
        ("Error: Invalid line number: " ++ toString n ++ ". File has "
          ++ toString lines.length ++ " lines.", fs)
      else
        ("Text inserted at line " ++ toString n ++ " in " ++ path,
          fs.setFile (pathSegments path)
            (joinWith "\n" (lines.take n.toNat ++ text :: lines.drop n.toNat)))
  else if command = "undo_edit" then
    ("Error: undo_edit command is not supported in this version. Use str_replace to revert changes.", fs)
  else ("Error: Unknown command: " ++ command, fs)

/-- The structured result of the `file_manager` tool: `{success: true,
message}` or `{success: false, error}` (spec 4.3 and 6). -/
inductive FMResult where
  | success (message : String)
  | failure (error : String)
deriving DecidableEq, Repr

/-- Modelled from the spec: the command dispatch of the missing
`buildFileManagerTool` (`file_manager`, spec 4.3).  `rename` requires
`new_path` and otherwise delegates to the tree's `move` with the uniform
failure text; `delete` delegates to the tree's recursive delete and ignores
`new_path`; anything else is `Invalid command`.  Failures never mutate. -/
def fileManagerExecute (fs : VirtualFileSystem) (command path : String)
    (new_path : Option String) : FMResult × VirtualFileSystem :=
  if command = "rename" then
    match new_path with
    | none => (FMResult.failure "new_path is required for rename command", fs)
    | some np =>
      match fs.move path np with
      | none => (FMResult.failure ("Failed to rename " ++ path ++ " to " ++ np), fs)
      | some fs' => (FMResult.success ("Successfully renamed " ++ path ++ " to " ++ np), fs')
  else if command = "delete" then
    match fs.deleteNode path with
    | none => (FMResult.failure ("Failed to delete " ++ path), fs)
    | some fs' => (FMResult.success ("Successfully deleted " ++ path), fs')
  else (FMResult.failure "Invalid command", fs)

/-- The invariants every tree reachable through the API satisfies (spec
section 3): keys are non-root with non-empty, separator-free segments, and
every ancestor of a stored node is stored too. -/
def VirtualFileSystem.wellFormed (fs : VirtualFileSystem) : Bool :=
  fs.entries.all fun e =>
    (!(decide (e.1 = [])))
    && e.1.all (fun s => !(decide (s = "")) && !(decide ('/' ∈ s.data)))
    && (properPrefixes e.1).all fun a => (findEntry a fs.entries).isSome

/-! Lemmas about splitting and joining. -/

theorem splitOnCharL_ne_nil (c : Char) (z : List Char) : splitOnCharL c z ≠ [] := by
  cases z with
  | nil => simp [splitOnCharL]
  | cons ch rest =>
    simp only [splitOnCharL]
    cases h : splitOnCharL c rest with
    | nil => simp
    | cons l ls =>
      by_cases hc : ch = c <;> simp [hc]

theorem splitOnCharL_sep (c : Char) (z : List Char) :
    splitOnCharL c (c :: z) = [] :: splitOnCharL c z := by
  simp only [splitOnCharL]
  cases h : splitOnCharL c z with
  | nil => exact absurd h (splitOnCharL_ne_nil c z)
  | cons l ls => simp

theorem splitOnCharL_app (c : Char) (k z : List Char) (h1 : c ∉ k)
    (hhd : List Char) (htl : List (List Char))
    (h2 : splitOnCharL c z = hhd :: htl) :
    splitOnCharL c (k ++ z) = (k ++ hhd) :: htl := by
  induction k with
  | nil => simpa using h2
  | cons a as ih =>
    have ha : a ≠ c := fun hac => h1 (hac ▸ List.mem_cons_self a as)
    have has : c ∉ as := fun hm => h1 (List.mem_cons_of_mem a hm)
    simp only [List.cons_append, splitOnCharL, List.append_eq]
    rw [ih has]
    simp [ha]

theorem splitOnCharL_free (c : Char) (k : List Char) (h1 : c ∉ k) :
    splitOnCharL c k = [k] := by
  have := splitOnCharL_app c k [] h1 [] [] rfl
  simpa using this

theorem splitOnCharL_mem_free (c : Char) (z : List Char) :
    ∀ l ∈ splitOnCharL c z, c ∉ l := by
  induction z with
  | nil => simp [splitOnCharL]
  | cons ch rest ih =>
    intro l hl
    obtain ⟨a, as, h⟩ : ∃ a as, splitOnCharL c rest = a :: as := by
      cases h : splitOnCharL c rest with
      | nil => exact absurd h (splitOnCharL_ne_nil c rest)
      | cons a as => exact ⟨a, as, rfl⟩
    simp only [splitOnCharL, h] at hl
    by_cases hc : ch = c
    · rw [if_pos hc] at hl
      rcases List.mem_cons.mp hl with h1 | h1
      · simp [h1]
      · exact ih l (h ▸ h1)
    · rw [if_neg hc] at hl
      rcases List.mem_cons.mp hl with h1 | h1
      · subst h1
        intro hm
        rcases List.mem_cons.mp hm with h2 | h2
        · exact hc h2.symm
        · exact ih a (h ▸ List.mem_cons_self a as) h2
      · exact ih l (h ▸ List.mem_cons_of_mem a h1)

theorem data_append (a b : String) : (a ++ b).data = a.data ++ b.data :=
  String.data_append a b

theorem splitLines_joinWith (ls : List String) (hne : ls ≠ [])
    (hfree : ∀ l ∈ ls, '\n' ∉ l.data) :
    splitLines (joinWith "\n" ls) = ls := by
  induction ls with
  | nil => exact absurd rfl hne
  | cons l rest ih =>
    cases rest with
    | nil =>
      have hf : '\n' ∉ l.data := hfree l (List.mem_cons_self l [])
      simp only [joinWith, splitLines]
      rw [splitOnCharL_free '\n' l.data hf]
      simp
    | cons l2 ls2 =>
      have hf : '\n' ∉ l.data := hfree l (List.mem_cons_self _ _)
      have hfree' : ∀ x ∈ l2 :: ls2, '\n' ∉ x.data := fun x hx =>
        hfree x (List.mem_cons_of_mem l hx)
      have ih' := ih (by simp) hfree'
      simp only [joinWith, splitLines] at ih' ⊢
      have hdata : (l ++ "\n" ++ joinWith "\n" (l2 :: ls2)).data
          = l.data ++ ('\n' :: (joinWith "\n" (l2 :: ls2)).data) := by
        rw [data_append, data_append]
        simp
      rw [hdata]
      obtain ⟨a, as, h⟩ : ∃ a as,
          splitOnCharL '\n' (joinWith "\n" (l2 :: ls2)).data = a :: as := by
        cases h : splitOnCharL '\n' (joinWith "\n" (l2 :: ls2)).data with
        | nil => exact absurd h (splitOnCharL_ne_nil _ _)
        | cons a as => exact ⟨a, as, rfl⟩
      rw [splitOnCharL_app '\n' l.data _ hf [] (a :: as)
        (by rw [splitOnCharL_sep, h])]
      rw [h] at ih'
      show String.mk (l.data ++ []) :: List.map String.mk (a :: as) = l :: l2 :: ls2
      rw [List.append_nil, ih']

theorem dropEmpty_eq_self (l : List String) (h : ∀ s ∈ l, s ≠ "") :
    dropEmpty l = l := by
  induction l with
  | nil => rfl
  | cons s rest ih =>
    have hs : s ≠ "" := h s (List.mem_cons_self _ _)
    simp only [dropEmpty, if_neg hs]
    rw [ih fun x hx => h x (List.mem_cons_of_mem s hx)]

theorem map_mk_data (l : List String) :
    (l.map String.data).map String.mk = l := by
  induction l with
  | nil => rfl
  | cons s rest ih => simp only [List.map_cons, ih]

theorem joinSegsAux_data (k : List String)
    (hfree : ∀ s ∈ k, '/' ∉ s.data) :
    splitOnCharL '/' (joinSegsAux k).data = [] :: k.map String.data := by
  induction k with
  | nil => rfl
  | cons s rest ih =>
    have hs : '/' ∉ s.data := hfree s (List.mem_cons_self _ _)
    have ih' := ih fun x hx => hfree x (List.mem_cons_of_mem s hx)
    simp only [joinSegsAux]
    have hdata : ("/" ++ s ++ joinSegsAux rest).data
        = '/' :: (s.data ++ (joinSegsAux rest).data) := by
      rw [data_append, data_append]
      rfl
    rw [hdata, splitOnCharL_sep]
    obtain ⟨a, as, h⟩ : ∃ a as, splitOnCharL '/' (joinSegsAux rest).data = a :: as := by
      cases h : splitOnCharL '/' (joinSegsAux rest).data with
      | nil => exact absurd h (splitOnCharL_ne_nil _ _)
      | cons a as => exact ⟨a, as, rfl⟩
    rw [splitOnCharL_app '/' s.data _ hs a as h]
    rw [h] at ih'
    have ha : a = [] := (List.cons.injEq _ _ _ _).mp ih' |>.1
    have has : as = rest.map String.data := (List.cons.injEq _ _ _ _).mp ih' |>.2
    subst ha
    subst has
    simp

theorem pathSegments_joinPath (k : List String) (hne : k ≠ [])
    (hv : ∀ s ∈ k, s ≠ "" ∧ '/' ∉ s.data) :
    pathSegments (joinPath k) = k := by
  cases k with
  | nil => exact absurd rfl hne
  | cons s rest =>
    simp only [joinPath, pathSegments]
    rw [joinSegsAux_data (s :: rest) fun x hx => (hv x hx).2]
    simp only [List.map_cons]
    rw [map_mk_data]
    show dropEmpty ("" :: s :: rest) = s :: rest
    simp only [dropEmpty, if_pos rfl]
    exact dropEmpty_eq_self (s :: rest) fun x hx => (hv x hx).1

/-! Lemmas about association-list access. -/

theorem findEntry_append (k : List String) (l1 l2 : List (List String × FSNode)) :
    findEntry k (l1 ++ l2)
      = match findEntry k l1 with
        | some n => some n
        | none => findEntry k l2 := by
  induction l1 with
  | nil => simp [findEntry]
  | cons e rest ih =>
    by_cases he : e.1 = k
    · simp [findEntry, he]
    · simp [findEntry, he, ih]

theorem findEntry_eq_none_iff (k : List String) (l : List (List String × FSNode)) :
    findEntry k l = none ↔ ∀ e ∈ l, e.1 ≠ k := by
  induction l with
  | nil => simp [findEntry]
  | cons e rest ih =>
    by_cases he : e.1 = k
    · simp [findEntry, he]
    · simp [findEntry, he, ih]

theorem findEntry_isSome_iff (k : List String) (l : List (List String × FSNode)) :
    (findEntry k l).isSome = true ↔ ∃ e ∈ l, e.1 = k := by
  induction l with
  | nil => simp [findEntry]
  | cons e rest ih =>
    by_cases he : e.1 = k
    · simp [findEntry, he]
    · simp [findEntry, he, ih]

theorem findEntry_mem (k : List String) (l : List (List String × FSNode))
    (n : FSNode) (h : findEntry k l = some n) : (k, n) ∈ l := by
  induction l with
  | nil => exact absurd h (by simp [findEntry])
  | cons e rest ih =>
    obtain ⟨k2, n2⟩ := e
    by_cases he : k2 = k
    · subst he
      simp only [findEntry, if_pos rfl] at h
      injection h with h
      subst h
      exact List.mem_cons_self _ _
    · simp only [findEntry, if_neg he] at h
      exact List.mem_cons_of_mem _ (ih h)

theorem findEntry_filterKey (k : List String) (f : List String → Bool)
    (l : List (List String × FSNode)) (hk : f k = true) :
    findEntry k (l.filter fun e => f e.1) = findEntry k l := by
  induction l with
  | nil => rfl
  | cons e rest ih =>
    by_cases hf : f e.1 = true
    · by_cases he : e.1 = k
      · simp [List.filter_cons, hf, hk, findEntry, he]
      · simp [List.filter_cons, hf, hk, findEntry, he, ih]
    · have he : e.1 ≠ k := fun h => hf (h ▸ hk)
      simp [List.filter_cons, hf, findEntry, he, ih]

theorem findEntry_setEntry_self (k : List String) (n : FSNode)
    (l : List (List String × FSNode)) :
    findEntry k (setEntry k n l) = (findEntry k l).map fun _ => n := by
  induction l with
  | nil => simp [findEntry, setEntry]
  | cons e rest ih =>
    by_cases he : e.1 = k
    · simp [setEntry, findEntry, he]
    · simp [setEntry, findEntry, he, ih]

theorem findEntry_map_dir (k : List String) (ks : List (List String))
    (h : k ∈ ks) :
    (findEntry k (ks.map fun a => (a, FSNode.directory))).isSome = true := by
  induction ks with
  | nil => simp at h
  | cons a rest ih =>
    rcases List.mem_cons.mp h with h1 | h1
    · simp [findEntry, h1]
    · by_cases ha : a = k
      · simp [findEntry, ha]
      · simp only [List.map_cons, findEntry, if_neg ha]
        exact ih h1

/-! Lemmas about key prefixes and ancestors. -/

theorem keyStarts_refl (k : List String) : keyStarts k k = true := by
  induction k with
  | nil => rfl
  | cons s rest ih => simp [keyStarts, ih]

theorem keyStarts_self_append (p r : List String) :
    keyStarts p (p ++ r) = true := by
  induction p with
  | nil => rfl
  | cons s rest ih => simp [keyStarts, ih]

theorem keyStarts_append_drop (p k : List String) (h : keyStarts p k = true) :
    p ++ k.drop p.length = k := by
  induction p generalizing k with
  | nil => simp
  | cons s rest ih =>
    cases k with
    | nil => simp [keyStarts] at h
    | cons b bs =>
      simp only [keyStarts] at h
      by_cases hb : s = b
      · rw [if_pos hb] at h
        subst hb
        simpa using ih bs h
      · rw [if_neg hb] at h
        exact absurd h (by simp)

theorem keyStarts_length_le (p k : List String) (h : keyStarts p k = true) :
    p.length ≤ k.length := by
  have := keyStarts_append_drop p k h
  calc p.length ≤ p.length + (k.drop p.length).length := Nat.le_add_right _ _
    _ = (p ++ k.drop p.length).length := (List.length_append _ _).symm
    _ = k.length := by rw [this]

theorem keyStarts_iff_exists (p k : List String) :
    keyStarts p k = true ↔ ∃ r, k = p ++ r := by
  constructor
  · intro h
    exact ⟨k.drop p.length, (keyStarts_append_drop p k h).symm⟩
  · intro ⟨r, hr⟩
    exact hr ▸ keyStarts_self_append p r

theorem properPrefixes_mem (a k : List String) :
    a ∈ properPrefixes k ↔ a ≠ [] ∧ a ≠ k ∧ keyStarts a k = true := by
  induction k generalizing a with
  | nil =>
    simp only [properPrefixes, List.not_mem_nil, false_iff]
    intro ⟨h1, h2, h3⟩
    cases a with
    | nil => exact h1 rfl
    | cons s rest => simp [keyStarts] at h3
  | cons s rest ih =>
    cases rest with
    | nil =>
      simp only [properPrefixes, List.not_mem_nil, false_iff]
      intro ⟨h1, h2, h3⟩
      cases a with
      | nil => exact h1 rfl
      | cons b bs =>
        simp only [keyStarts] at h3
        by_cases hb : b = s
        · subst hb
          rw [if_pos rfl] at h3
          cases bs with
          | nil => exact h2 rfl
          | cons c cs => simp [keyStarts] at h3
        · rw [if_neg hb] at h3
          exact absurd h3 (by simp)
    | cons t ts =>
      constructor
      · intro hmem
        rcases List.mem_cons.mp hmem with h1 | h1
        · subst h1
          refine ⟨by simp, ?_, by simp [keyStarts, keyStarts_refl]⟩
          intro heq
          have : ([] : List String) = t :: ts := by injection heq
          simp at this
        · obtain ⟨b, hb, hba⟩ := List.mem_map.mp h1
          obtain ⟨hb1, hb2, hb3⟩ := (ih b).mp hb
          subst hba
          refine ⟨by simp, ?_, by simp [keyStarts, hb3]⟩
          intro heq
          exact hb2 (by injection heq)
      · intro ⟨h1, h2, h3⟩
        cases a with
        | nil => exact absurd rfl h1
        | cons b bs =>
          simp only [keyStarts] at h3
          by_cases hb : b = s
          · subst hb
            rw [if_pos rfl] at h3
            cases bs with
            | nil => exact List.mem_cons_self _ _
            | cons c cs =>
              refine List.mem_cons_of_mem _ (List.mem_map.mpr ⟨c :: cs, ?_, rfl⟩)
              refine (ih (c :: cs)).mpr ⟨by simp, ?_, h3⟩
              intro hcs
              exact h2 (by rw [hcs])
          · rw [if_neg hb] at h3
            exact absurd h3 (by simp)

/-! Access lemmas for the well-formedness invariant. -/

theorem wf_entry (fs : VirtualFileSystem) (hwf : fs.wellFormed = true)
    (e : List String × FSNode) (he : e ∈ fs.entries) :
    e.1 ≠ [] ∧ (∀ s ∈ e.1, s ≠ "" ∧ '/' ∉ s.data)
      ∧ ∀ a ∈ properPrefixes e.1, (findEntry a fs.entries).isSome = true := by
  rw [VirtualFileSystem.wellFormed, List.all_eq_true] at hwf
  have h := hwf e he
  simp only [Bool.and_eq_true, List.all_eq_true, decide_eq_true_eq,
    Bool.not_eq_true', decide_eq_false_iff_not] at h
  exact ⟨h.1.1, fun s hs => (h.1.2 s hs), fun a ha => h.2 a ha⟩

theorem wf_anc_exists (fs : VirtualFileSystem) (hwf : fs.wellFormed = true)
    (k a : List String) (hk : (findEntry k fs.entries).isSome = true)
    (ha : a ∈ properPrefixes k) : (findEntry a fs.entries).isSome = true := by
  obtain ⟨e, he, hek⟩ := (findEntry_isSome_iff k fs.entries).mp hk
  have := (wf_entry fs hwf e he).2.2
  exact this a (hek ▸ ha)

/-! Lemmas about the occurrence scan. -/

theorem countOcc_nil_pat (s : List Char) : countOcc [] s = 0 := by
  induction s with
  | nil => simp [countOcc]
  | cons c rest ih =>
    rw [countOcc, if_neg (by simp)]
    exact ih

theorem countOcc_zero_iff (pat : List Char) (hpat : pat ≠ []) (s : List Char) :
    countOcc pat s = 0 ↔ containsSub pat s = false := by
  induction s with
  | nil =>
    cases pat with
    | nil => exact absurd rfl hpat
    | cons a as => simp [countOcc, containsSub, matchesAt]
  | cons c rest ih =>
    by_cases hm : matchesAt pat (c :: rest) = true
    · rw [countOcc, if_pos ⟨hpat, hm⟩, containsSub, hm]
      simp
    · rw [countOcc, if_neg (by simp [hm]), containsSub]
      simp only [Bool.or_eq_false_iff]
      rw [ih]
      simp [hm]

/-! Assorted helper lemmas for the claims. -/

theorem findEntry_map_rebase (ko kn r : List String)
    (l : List (List String × FSNode))
    (h : ∀ e ∈ l, keyStarts ko e.1 = true) :
    findEntry (kn ++ r) (l.map fun e => (kn ++ e.1.drop ko.length, e.2))
      = findEntry (ko ++ r) l := by
  induction l with
  | nil => rfl
  | cons e rest ih =>
    have hk : keyStarts ko e.1 = true := h e (List.mem_cons_self _ _)
    have hrec := ih fun x hx => h x (List.mem_cons_of_mem e hx)
    simp only [List.map_cons, findEntry]
    by_cases heq : kn ++ e.1.drop ko.length = kn ++ r
    · have hr : e.1.drop ko.length = r := List.append_cancel_left heq
      have he1 : e.1 = ko ++ r := by
        rw [← hr]
        exact (keyStarts_append_drop ko e.1 hk).symm
      rw [if_pos heq, if_pos he1]
    · have he1 : e.1 ≠ ko ++ r := by
        intro hcon
        apply heq
        rw [hcon]
        congr 1
        simp
      rw [if_neg heq, if_neg he1]
      exact hrec

theorem numberFrom_getElem (i : Nat) (ls : List String) (j : Nat) :
    (numberFrom i ls)[j]? = (ls[j]?).map fun l => (i + j, l) := by
  induction ls generalizing i j with
  | nil => simp [numberFrom]
  | cons l rest ih =>
    cases j with
    | zero => simp [numberFrom]
    | succ j' =>
      simp only [numberFrom, List.getElem?_cons_succ, ih (i + 1) j']
      have : i + 1 + j' = i + (j' + 1) := by omega
      rw [this]

theorem filterMap_eq_self (α : Type) (l : List α) (f : α → Option α)
    (h : ∀ x ∈ l, f x = some x) : l.filterMap f = l := by
  induction l with
  | nil => rfl
  | cons x rest ih =>
    rw [List.filterMap_cons, h x (List.mem_cons_self _ _),
      ih fun y hy => h y (List.mem_cons_of_mem x hy)]

theorem splitLines_ne_nil (c : String) : splitLines c ≠ [] := by
  intro h
  have := splitOnCharL_ne_nil '\n' c.data
  simp only [splitLines] at h
  exact this (List.map_eq_nil_iff.mp h)

theorem splitLines_mem_free (c : String) :
    ∀ l ∈ splitLines c, '\n' ∉ l.data := by
  intro l hl
  simp only [splitLines] at hl
  obtain ⟨d, hd, hdl⟩ := List.mem_map.mp hl
  have := splitOnCharL_mem_free '\n' c.data d hd
  rw [← hdl]
  exact this

theorem str_data_ne_nil (s : String) (h : s ≠ "") : s.data ≠ [] := by
  intro hd
  apply h
  apply String.ext
  rw [hd]

/-- Claim C4: for every file (whatever its content) and every new string,
`str_replace` with an empty `old_str` — given explicitly or omitted — never
matches: it returns exactly the error string with the empty quoted search
string and leaves the tree (hence the file) unchanged. -/
theorem C4_empty_old_never_matches (fs : VirtualFileSystem) (p c : String)
    (new_str : Option String) (hfile : fs.getNode p = some (FSNode.file c)) :
    strReplaceExecute fs "str_replace" p none none (some "") new_str none
        = ("Error: String not found in file: \"\"", fs)
    ∧ strReplaceExecute fs "str_replace" p none none none new_str none
        = ("Error: String not found in file: \"\"", fs) := by
  have h0 : countOcc ("" : String).data c.data = 0 := countOcc_nil_pat c.data
  constructor <;> simp [strReplaceExecute, hfile, h0]

/-- Witness for C4 at a concrete non-empty file. -/
theorem C4_empty_old_never_matches_witness :
    strReplaceExecute ⟨[(["t.txt"], FSNode.file "content")]⟩ "str_replace"
        "/t.txt" none none (some "") (some "new") none
      = ("Error: String not found in file: \"\"",
         ⟨[(["t.txt"], FSNode.file "content")]⟩) :=
  (C4_empty_old_never_matches ⟨[(["t.txt"], FSNode.file "content")]⟩
    "/t.txt" "content" (some "new") (by decide)).1

/-- Claim C1: for every file and non-empty `old_str`, `str_replace` is
atomic-or-noop: when `old_str` has no occurrence in the content (and a count
of zero is exactly the absence of any substring occurrence), it returns the
`Error: String not found in file: "<old_str>"` message and the whole tree is
returned byte-identical; otherwise it reports a count of at least one and
the file's new content is the full left-to-right replacement of every
occurrence — no partial replacement is possible. -/
theorem C1_str_replace_atomic (fs : VirtualFileSystem) (p c old nw : String)
    (hfile : fs.getNode p = some (FSNode.file c)) (hold : old ≠ "") :
    (countOcc old.data c.data = 0 →
        containsSub old.data c.data = false
      ∧ strReplaceExecute fs "str_replace" p none none (some old) (some nw) none
          = ("Error: String not found in file: \"" ++ old ++ "\"", fs))
    ∧ (countOcc old.data c.data ≠ 0 →
        1 ≤ countOcc old.data c.data
      ∧ strReplaceExecute fs "str_replace" p none none (some old) (some nw) none
          = ("Replaced " ++ toString (countOcc old.data c.data)
              ++ " occurrence(s) of the string in " ++ p,
             fs.setFile (pathSegments p)
               (String.mk (replaceAll old.data nw.data c.data)))
      ∧ ((strReplaceExecute fs "str_replace" p none none (some old) (some nw) none).2).getNode p
          = some (FSNode.file (String.mk (replaceAll old.data nw.data c.data)))) := by
  constructor
  · intro h0
    refine ⟨(countOcc_zero_iff old.data (str_data_ne_nil old hold) c.data).mp h0, ?_⟩
    simp [strReplaceExecute, hfile, h0]
  · intro hn
    have hres : strReplaceExecute fs "str_replace" p none none (some old) (some nw) none
        = ("Replaced " ++ toString (countOcc old.data c.data)
            ++ " occurrence(s) of the string in " ++ p,
           fs.setFile (pathSegments p)
             (String.mk (replaceAll old.data nw.data c.data))) := by
      simp [strReplaceExecute, hfile, hn]
    refine ⟨Nat.one_le_iff_ne_zero.mpr hn, hres, ?_⟩
    rw [hres]
    cases hk : pathSegments p with
    | nil => simp [VirtualFileSystem.getNode, hk] at hfile
    | cons s rest =>
      simp only [VirtualFileSystem.getNode, hk] at hfile
      simp only [VirtualFileSystem.getNode, VirtualFileSystem.setFile, hk,
        findEntry_setEntry_self, hfile, Option.map_some']

/-- Witness for C1 at a concrete file with three occurrences. -/
theorem C1_str_replace_atomic_witness :
    strReplaceExecute ⟨[(["t.txt"], FSNode.file "foo bar foo baz foo")]⟩
        "str_replace" "/t.txt" none none (some "foo") (some "qux") none
      = ("Replaced 3 occurrence(s) of the string in /t.txt",
         ⟨[(["t.txt"], FSNode.file "qux bar qux baz qux")]⟩) := by
  have h := (C1_str_replace_atomic ⟨[(["t.txt"], FSNode.file "foo bar foo baz foo")]⟩
    "/t.txt" "foo bar foo baz foo" "foo" "qux" (by decide) (by decide)).2
    (by simp [countOcc, matchesAt])
  rw [h.2.1]
  simp [countOcc, replaceAll, matchesAt, VirtualFileSystem.setFile, setEntry]
  constructor
  · decide
  · decide

theorem findEntry_append_left (k : List String) (l1 l2 : List (List String × FSNode))
    (n : FSNode) (h : findEntry k l1 = some n) : findEntry k (l1 ++ l2) = some n := by
  rw [findEntry_append, h]

theorem findEntry_append_right (k : List String) (l1 l2 : List (List String × FSNode))
    (h : findEntry k l1 = none) : findEntry k (l1 ++ l2) = findEntry k l2 := by
  rw [findEntry_append, h]

theorem missingAncestors_not_self (entries : List (List String × FSNode))
    (k a : List String) (ha : a ∈ missingAncestors entries k) : a ≠ k := by
  have := (List.mem_filter.mp ha).1
  exact ((properPrefixes_mem a k).mp this).2.1

/-- After a successful `create`, the created path holds a file with exactly
the requested text (the empty string when `file_text` is omitted). -/
theorem create_getNode (fs : VirtualFileSystem) (p : String) (t : Option String)
    (hex : fs.existsPath p = false) :
    (strReplaceExecute fs "create" p none t none none none).2.getNode p
      = some (FSNode.file (t.getD "")) := by
  cases hk : pathSegments p with
  | nil => simp [VirtualFileSystem.existsPath, VirtualFileSystem.getNode, hk] at hex
  | cons s rest =>
    have hfe : findEntry (s :: rest) fs.entries = none := by
      have hex' := hex
      simp only [VirtualFileSystem.existsPath, VirtualFileSystem.getNode, hk] at hex'
      cases hv : findEntry (s :: rest) fs.entries with
      | none => rfl
      | some n => rw [hv] at hex'; simp at hex'
    have hanc : findEntry (s :: rest)
        ((missingAncestors fs.entries (s :: rest)).map fun a => (a, FSNode.directory))
        = none := by
      rw [findEntry_eq_none_iff]
      intro e he
      obtain ⟨a, ha, hae⟩ := List.mem_map.mp he
      rw [← hae]
      exact missingAncestors_not_self fs.entries (s :: rest) a ha
    simp only [strReplaceExecute, VirtualFileSystem.createFile, hk, hfe,
      Option.isSome_none, Bool.false_eq_true, if_false, if_neg,
      VirtualFileSystem.getNode, String.reduceEq, reduceIte]
    rw [findEntry_append_right _ _ _
      (by rw [findEntry_append_right _ _ _ hfe]; exact hanc)]
    simp [findEntry]

/-- Claim C5: `create` makes a new file holding `file_text` (the empty string
when omitted) and auto-creates every missing ancestor directory; when a node
already exists at exactly that path it returns the `File already exists`
error and leaves the entire tree unchanged, and entries present before a
successful create are still found unchanged afterwards. -/
theorem C5_create_contract (fs : VirtualFileSystem) (p : String)
    (file_text : Option String) :
    (fs.existsPath p = true →
      strReplaceExecute fs "create" p none file_text none none none
        = ("Error: File already exists: " ++ p, fs))
    ∧ (fs.existsPath p = false →
      (strReplaceExecute fs "create" p none file_text none none none).1
          = "File created: " ++ p
      ∧ (strReplaceExecute fs "create" p none file_text none none none).2.readFile p
          = VirtualFileSystem.ReadResult.ok (file_text.getD "")
      ∧ (∀ a ∈ properPrefixes (pathSegments p),
          (findEntry a (strReplaceExecute fs "create" p none file_text none none none).2.entries).isSome
            = true)
      ∧ (∀ k' n, findEntry k' fs.entries = some n →
          findEntry k' (strReplaceExecute fs "create" p none file_text none none none).2.entries
            = some n)) := by
  constructor
  · intro hex
    cases hk : pathSegments p with
    | nil => simp [strReplaceExecute, VirtualFileSystem.createFile, hk]
    | cons s rest =>
      have hex' := hex
      simp only [VirtualFileSystem.existsPath, VirtualFileSystem.getNode, hk] at hex'
      simp [strReplaceExecute, VirtualFileSystem.createFile, hk, hex']
  · intro hex
    cases hk : pathSegments p with
    | nil => simp [VirtualFileSystem.existsPath, VirtualFileSystem.getNode, hk] at hex
    | cons s rest =>
      have hfe : findEntry (s :: rest) fs.entries = none := by
        have hex' := hex
        simp only [VirtualFileSystem.existsPath, VirtualFileSystem.getNode, hk] at hex'
        cases hv : findEntry (s :: rest) fs.entries with
        | none => rfl
        | some n => rw [hv] at hex'; simp at hex'
      have hres : (strReplaceExecute fs "create" p none file_text none none none).2
          = ⟨fs.entries
            ++ (missingAncestors fs.entries (s :: rest)).map (fun a => (a, FSNode.directory))
            ++ [(s :: rest, FSNode.file (file_text.getD ""))]⟩ := by
        simp [strReplaceExecute, VirtualFileSystem.createFile, hk, hfe]
      refine ⟨by simp [strReplaceExecute, VirtualFileSystem.createFile, hk, hfe], ?_, ?_, ?_⟩
      · have := create_getNode fs p file_text hex
        simp only [VirtualFileSystem.readFile, this]
      · intro a ha
        rw [hres]
        show (findEntry a (fs.entries
          ++ (missingAncestors fs.entries (s :: rest)).map (fun x => (x, FSNode.directory))
          ++ [(s :: rest, FSNode.file (file_text.getD ""))])).isSome = true
        cases hv : findEntry a fs.entries with
        | some n =>
          rw [findEntry_append_left _ _ _ n (findEntry_append_left _ _ _ n hv)]
          rfl
        | none =>
          have hmiss : a ∈ missingAncestors fs.entries (s :: rest) := by
            rw [missingAncestors, List.mem_filter]
            exact ⟨hk ▸ ha, by rw [hv]; rfl⟩
          have hsome := findEntry_map_dir a (missingAncestors fs.entries (s :: rest)) hmiss
          obtain ⟨n, hn⟩ := Option.isSome_iff_exists.mp hsome
          have h2 : findEntry a (fs.entries
              ++ (missingAncestors fs.entries (s :: rest)).map
                (fun x => (x, FSNode.directory))) = some n := by
            rw [findEntry_append_right _ _ _ hv]
            exact hn
          rw [findEntry_append_left _ _ _ n h2]
          rfl
      · intro k' n hk'
        rw [hres]
        exact findEntry_append_left _ _ _ n (findEntry_append_left _ _ _ n hk')

/-- Witness for C5: creating a nested file in the empty tree succeeds and is
readable back; creating it again fails with the exact error. -/
theorem C5_create_contract_witness :
    (strReplaceExecute ⟨[]⟩ "create" "/src/components/Button.tsx" none
        (some "export default 1") none none none).1
      = "File created: /src/components/Button.tsx"
    ∧ (strReplaceExecute ⟨[(["a.txt"], FSNode.file "old")]⟩ "create" "/a.txt" none
        (some "new") none none none)
      = ("Error: File already exists: /a.txt", ⟨[(["a.txt"], FSNode.file "old")]⟩) :=
  ⟨((C5_create_contract ⟨[]⟩ "/src/components/Button.tsx"
      (some "export default 1")).2 (by decide)).1,
   (C5_create_contract ⟨[(["a.txt"], FSNode.file "old")]⟩ "/a.txt"
      (some "new")).1 (by decide)⟩

/-- Claim C3: `view` on a file returns its lines prefixed with 1-based line
number and a tab (restricted to the inclusive range when one is given), and
a freshly created empty file views as exactly the two characters `1` `tab`;
`view` on a directory lists each immediate child tagged `[DIR]`/`[FILE]`, or
the literal `(empty directory)` marker; a missing path yields
`File not found: <path>` with no `Error:` prefix. -/
theorem C3_view_contract (fs : VirtualFileSystem) (p c : String)
    (r : Option (Int × Int)) :
    (fs.getNode p = none →
      strReplaceExecute fs "view" p r none none none none
        = ("File not found: " ++ p, fs))
    ∧ (fs.getNode p = some (FSNode.file c) →
      strReplaceExecute fs "view" p r none none none none
          = (joinWith "\n" (viewFileLines c r), fs)
      ∧ viewFileLines c none
          = (numberFrom 1 (splitLines c)).map (fun e => toString e.1 ++ "\t" ++ e.2))
    ∧ (fs.getNode p = some FSNode.directory →
      (fs.list p = [] →
        strReplaceExecute fs "view" p r none none none none
          = ("(empty directory)", fs))
      ∧ (fs.list p ≠ [] →
        strReplaceExecute fs "view" p r none none none none
          = (joinWith "\n" ((fs.list p).map fun e =>
              (if e.2 then "[DIR] " else "[FILE] ") ++ e.1), fs)))
    ∧ (fs.existsPath p = false →
      (strReplaceExecute ((strReplaceExecute fs "create" p none none none none none).2)
          "view" p none none none none none).1 = "1\t") := by
  refine ⟨?_, ?_, ?_, ?_⟩
  · intro h
    simp [strReplaceExecute, viewCmd, h]
  · intro h
    exact ⟨by simp [strReplaceExecute, viewCmd, h], rfl⟩
  · intro h
    constructor
    · intro hl
      simp [strReplaceExecute, viewCmd, h, hl]
    · intro hl
      cases hL : fs.list p with
      | nil => exact absurd hL hl
      | cons x xs => simp [strReplaceExecute, viewCmd, h, hL]
  · intro hex
    have hg := create_getNode fs p none hex
    have hv : strReplaceExecute ((strReplaceExecute fs "create" p none none none none none).2)
        "view" p none none none none none
      = (viewCmd ((strReplaceExecute fs "create" p none none none none none).2) p none,
         (strReplaceExecute fs "create" p none none none none none).2) := rfl
    rw [hv]
    show viewCmd ((strReplaceExecute fs "create" p none none none none none).2) p none = "1\t"
    rw [viewCmd, hg]
    rfl

/-- Witness for C3: the ranged view of a five-line file shows exactly lines
2 to 4 with their original numbering. -/
theorem C3_view_contract_witness :
    strReplaceExecute ⟨[(["t.txt"], FSNode.file "l1\nl2\nl3\nl4\nl5")]⟩
        "view" "/t.txt" (some (2, 4)) none none none none
      = ("2\tl2\n3\tl3\n4\tl4", ⟨[(["t.txt"], FSNode.file "l1\nl2\nl3\nl4\nl5")]⟩) := by
  have h := ((C3_view_contract ⟨[(["t.txt"], FSNode.file "l1\nl2\nl3\nl4\nl5")]⟩
    "/t.txt" "l1\nl2\nl3\nl4\nl5" (some (2, 4))).2.1 (by decide)).1
  rw [h]
  decide

/-- Claim C7: `delete` on an existing non-root path succeeds with the exact
success message and is recursive and total — afterwards neither the path nor
any path whose key extends it still exists, while unrelated entries are
untouched; it fails with `Failed to delete <path>` when the path is missing
or is the root, and a supplied `new_path` has no effect at all. -/
theorem C7_delete_recursive (fs : VirtualFileSystem) (p : String)
    (np : Option String) :
    (pathSegments p ≠ [] → fs.existsPath p = true →
      (fileManagerExecute fs "delete" p np).1
          = FMResult.success ("Successfully deleted " ++ p)
      ∧ (∀ q : String, keyStarts (pathSegments p) (pathSegments q) = true →
          ((fileManagerExecute fs "delete" p np).2).existsPath q = false)
      ∧ (∀ k', keyStarts (pathSegments p) k' = false →
          findEntry k' ((fileManagerExecute fs "delete" p np).2).entries
            = findEntry k' fs.entries))
    ∧ (fs.existsPath p = false →
      fileManagerExecute fs "delete" p np
        = (FMResult.failure ("Failed to delete " ++ p), fs))
    ∧ (pathSegments p = [] →
      fileManagerExecute fs "delete" p np
        = (FMResult.failure ("Failed to delete " ++ p), fs))
    ∧ fileManagerExecute fs "delete" p np = fileManagerExecute fs "delete" p none := by
  refine ⟨?_, ?_, ?_, rfl⟩
  · intro hne hex
    cases hk : pathSegments p with
    | nil => exact absurd hk hne
    | cons s rest =>
      have hex' : (findEntry (s :: rest) fs.entries).isSome = true := by
        have h := hex
        simpa only [VirtualFileSystem.existsPath, VirtualFileSystem.getNode, hk] using h
      have hres : fileManagerExecute fs "delete" p np
          = (FMResult.success ("Successfully deleted " ++ p),
             ⟨fs.entries.filter fun e => !(keyStarts (s :: rest) e.1)⟩) := by
        simp [fileManagerExecute, VirtualFileSystem.deleteNode, hk, hex']
      refine ⟨by rw [hres], ?_, ?_⟩
      · intro q hq
        rw [hres]
        cases hkq : pathSegments q with
        | nil => rw [hkq] at hq; simp [keyStarts] at hq
        | cons t ts =>
          simp only [VirtualFileSystem.existsPath, VirtualFileSystem.getNode, hkq]
          have : findEntry (t :: ts) (fs.entries.filter
              fun e => !(keyStarts (s :: rest) e.1)) = none := by
            rw [findEntry_eq_none_iff]
            intro e he heq
            have hq2 : keyStarts (s :: rest) (t :: ts) = true := by
              rw [← hkq]
              exact hq
            have := (List.mem_filter.mp he).2
            rw [heq, hq2] at this
            simp at this
          rw [this]
          rfl
      · intro k' hk'
        rw [hres]
        exact findEntry_filterKey k' (fun x => !(keyStarts (s :: rest) x))
          fs.entries (by simp [hk'])
  · intro hex
    cases hk : pathSegments p with
    | nil =>
      simp [VirtualFileSystem.existsPath, VirtualFileSystem.getNode, hk] at hex
    | cons s rest =>
      have hfe : findEntry (s :: rest) fs.entries = none := by
        have h := hex
        simp only [VirtualFileSystem.existsPath, VirtualFileSystem.getNode, hk] at h
        cases hv : findEntry (s :: rest) fs.entries with
        | none => rfl
        | some n => rw [hv] at h; simp at h
      simp [fileManagerExecute, VirtualFileSystem.deleteNode, hk, hfe]
  · intro hk
    simp [fileManagerExecute, VirtualFileSystem.deleteNode, hk]

/-- Witness for C7: deleting a directory removes a deep descendant too. -/
theorem C7_delete_recursive_witness :
    (fileManagerExecute ⟨[(["a"], FSNode.directory), (["a", "b"], FSNode.directory),
        (["a", "b", "c.txt"], FSNode.file "deep")]⟩ "delete" "/a" (some "/ignored")).1
      = FMResult.success "Successfully deleted /a"
    ∧ ((fileManagerExecute ⟨[(["a"], FSNode.directory), (["a", "b"], FSNode.directory),
        (["a", "b", "c.txt"], FSNode.file "deep")]⟩ "delete" "/a" (some "/ignored")).2).existsPath
        "/a/b/c.txt" = false := by
  have h := (C7_delete_recursive ⟨[(["a"], FSNode.directory), (["a", "b"], FSNode.directory),
    (["a", "b", "c.txt"], FSNode.file "deep")]⟩ "/a" (some "/ignored")).1
    (by decide) (by decide)
  exact ⟨h.1, h.2.1 "/a/b/c.txt" (by decide)⟩

/-- Claim C10: whenever `rename` fails — missing `new_path`, missing source,
already-existing destination, or root source — the returned tree is the
input tree itself, entirely unchanged: no node (including any intermediate
destination ancestor) is created, removed or modified. -/
theorem C10_rename_failure_no_mutation (fs : VirtualFileSystem) (p : String)
    (np : Option String) :
    (∀ e fs2, fileManagerExecute fs "rename" p np = (FMResult.failure e, fs2) →
      fs2 = fs)
    ∧ (fileManagerExecute fs "rename" p none
        = (FMResult.failure "new_path is required for rename command", fs))
    ∧ (∀ q, fs.existsPath p = false →
        fileManagerExecute fs "rename" p (some q)
          = (FMResult.failure ("Failed to rename " ++ p ++ " to " ++ q), fs))
    ∧ (∀ q, fs.existsPath q = true →
        fileManagerExecute fs "rename" p (some q)
          = (FMResult.failure ("Failed to rename " ++ p ++ " to " ++ q), fs))
    ∧ (∀ q, pathSegments p = [] →
        fileManagerExecute fs "rename" p (some q)
          = (FMResult.failure ("Failed to rename " ++ p ++ " to " ++ q), fs)) := by
  refine ⟨?_, rfl, ?_, ?_, ?_⟩
  · intro e fs2 h
    cases np with
    | none =>
      simp only [fileManagerExecute, String.reduceEq, reduceIte] at h
      exact (Prod.mk.injEq _ _ _ _).mp h |>.2.symm
    | some q =>
      simp only [fileManagerExecute, String.reduceEq, reduceIte] at h
      cases hm : fs.move p q with
      | none =>
        rw [hm] at h
        exact (Prod.mk.injEq _ _ _ _).mp h |>.2.symm
      | some fs' =>
        rw [hm] at h
        have := (Prod.mk.injEq _ _ _ _).mp h |>.1
        exact absurd this (by simp)
  · intro q hex
    cases hk : pathSegments p with
    | nil => simp [VirtualFileSystem.existsPath, VirtualFileSystem.getNode, hk] at hex
    | cons s rest =>
      have hfe : (findEntry (s :: rest) fs.entries).isNone = true := by
        have h := hex
        simp only [VirtualFileSystem.existsPath, VirtualFileSystem.getNode, hk] at h
        cases hv : findEntry (s :: rest) fs.entries with
        | none => rfl
        | some n => rw [hv] at h; simp at h
      simp [fileManagerExecute, VirtualFileSystem.move, hk, hfe]
  · intro q hex
    cases hk : pathSegments p with
    | nil => simp [fileManagerExecute, VirtualFileSystem.move, hk]
    | cons s rest =>
      simp [fileManagerExecute, VirtualFileSystem.move, hk, hex]
  · intro q hk
    simp [fileManagerExecute, VirtualFileSystem.move, hk]

/-- Witness for C10: renaming onto an existing destination fails and returns
the input tree unchanged. -/
theorem C10_rename_failure_no_mutation_witness :
    fileManagerExecute ⟨[(["s.txt"], FSNode.file "source"), (["d.txt"], FSNode.file "dest")]⟩
        "rename" "/s.txt" (some "/d.txt")
      = (FMResult.failure "Failed to rename /s.txt to /d.txt",
         ⟨[(["s.txt"], FSNode.file "source"), (["d.txt"], FSNode.file "dest")]⟩) :=
  (C10_rename_failure_no_mutation ⟨[(["s.txt"], FSNode.file "source"),
    (["d.txt"], FSNode.file "dest")]⟩ "/s.txt" (some "/d.txt")).2.2.2.1 "/d.txt" (by decide)

/-- Counterexample to claim C2 as stated: on a 1-line file, inserting the
two-line text joined by a newline at the valid index 1 succeeds, but the
subsequent view does not show that text as line 2 — the text is split at its
newline, so line 2 is only its first half. -/
theorem C2_counterexample :
    ((⟨[(["f.txt"], FSNode.file "x")]⟩ : VirtualFileSystem).getNode "/f.txt"
        = some (FSNode.file "x"))
    ∧ (splitLines "x").length = 1
    ∧ (strReplaceExecute ⟨[(["f.txt"], FSNode.file "x")]⟩ "insert" "/f.txt"
        none none none (some "a\nb") (some 1)).1 = "Text inserted at line 1 in /f.txt"
    ∧ ((strReplaceExecute ⟨[(["f.txt"], FSNode.file "x")]⟩ "insert" "/f.txt"
        none none none (some "a\nb") (some 1)).2).readFile "/f.txt"
        = VirtualFileSystem.ReadResult.ok "x\na\nb"
    ∧ (splitLines "x\na\nb")[1]? ≠ some "a\nb"
    ∧ (viewFileLines "x\na\nb" none)[1]? ≠ some ("2\t" ++ "a\nb") := by
  decide

/-- Claim C2 (amended): for an existing file with lines `L`, `insert` at any
`0 ≤ n ≤ L` with a text containing no newline succeeds, and a subsequent
view shows the text as line `n + 1` (so `n = L` appends it as the last line
and `n = 0` puts it before the first); for `n` outside `[0, L]` — including
negative `n` — it returns exactly
`Error: Invalid line number: <n>. File has <L> lines.` and leaves the tree
unchanged.  (The original claim omitted the no-newline proviso; a text with
a newline is split across several lines, see the counterexample.) -/
theorem C2_insert_contract (fs : VirtualFileSystem) (p c text : String) (n : Int)
    (hfile : fs.getNode p = some (FSNode.file c)) :
    (0 ≤ n → n ≤ ((splitLines c).length : Int) → '\n' ∉ text.data →
      strReplaceExecute fs "insert" p none none none (some text) (some n)
          = ("Text inserted at line " ++ toString n ++ " in " ++ p,
             fs.setFile (pathSegments p)
               (joinWith "\n" ((splitLines c).take n.toNat
                 ++ text :: (splitLines c).drop n.toNat)))
      ∧ ∃ c', ((strReplaceExecute fs "insert" p none none none (some text) (some n)).2).readFile p
            = VirtualFileSystem.ReadResult.ok c'
          ∧ splitLines c'
              = (splitLines c).take n.toNat ++ text :: (splitLines c).drop n.toNat
          ∧ (splitLines c')[n.toNat]? = some text
          ∧ (viewFileLines c' none)[n.toNat]?
              = some (toString (n.toNat + 1) ++ "\t" ++ text))
    ∧ ((n < 0 ∨ ((splitLines c).length : Int) < n) →
      strReplaceExecute fs "insert" p none none none (some text) (some n)
        = ("Error: Invalid line number: " ++ toString n ++ ". File has "
            ++ toString (splitLines c).length ++ " lines.", fs)) := by
  constructor
  · intro h0 hL hfree
    have hcond : ¬(n < 0 ∨ ((splitLines c).length : Int) < n) := by
      push_neg
      exact ⟨h0, hL⟩
    have hres : strReplaceExecute fs "insert" p none none none (some text) (some n)
        = ("Text inserted at line " ++ toString n ++ " in " ++ p,
           fs.setFile (pathSegments p)
             (joinWith "\n" ((splitLines c).take n.toNat
               ++ text :: (splitLines c).drop n.toNat))) := by
      simp [strReplaceExecute, hfile, hcond]
    refine ⟨hres, ?_⟩
    set lines' := (splitLines c).take n.toNat ++ text :: (splitLines c).drop n.toNat with hl'
    refine ⟨joinWith "\n" lines', ?_, ?_, ?_, ?_⟩
    · rw [hres]
      cases hk : pathSegments p with
      | nil => simp [VirtualFileSystem.getNode, hk] at hfile
      | cons s rest =>
        simp only [VirtualFileSystem.getNode, hk] at hfile
        simp only [VirtualFileSystem.readFile, VirtualFileSystem.getNode,
          VirtualFileSystem.setFile, hk, findEntry_setEntry_self, hfile,
          Option.map_some']
    · apply splitLines_joinWith
      · simp [hl']
      · intro l hl
        rw [hl'] at hl
        rcases List.mem_append.mp hl with h1 | h1
        · exact splitLines_mem_free c l (List.take_subset _ _ h1)
        · rcases List.mem_cons.mp h1 with h2 | h2
          · exact h2 ▸ hfree
          · exact splitLines_mem_free c l (List.drop_subset _ _ h2)
    · have hsl : splitLines (joinWith "\n" lines') = lines' := by
        apply splitLines_joinWith
        · simp [hl']
        · intro l hl
          rw [hl'] at hl
          rcases List.mem_append.mp hl with h1 | h1
          · exact splitLines_mem_free c l (List.take_subset _ _ h1)
          · rcases List.mem_cons.mp h1 with h2 | h2
            · exact h2 ▸ hfree
            · exact splitLines_mem_free c l (List.drop_subset _ _ h2)
      rw [hsl, hl']
      have htk : ((splitLines c).take n.toNat).length = n.toNat := by
        rw [List.length_take]
        have : n.toNat ≤ (splitLines c).length := by omega
        omega
      rw [List.getElem?_append_right (by rw [htk])]
      rw [htk]
      simp
    · have hsl : splitLines (joinWith "\n" lines') = lines' := by
        apply splitLines_joinWith
        · simp [hl']
        · intro l hl
          rw [hl'] at hl
          rcases List.mem_append.mp hl with h1 | h1
          · exact splitLines_mem_free c l (List.take_subset _ _ h1)
          · rcases List.mem_cons.mp h1 with h2 | h2
            · exact h2 ▸ hfree
            · exact splitLines_mem_free c l (List.drop_subset _ _ h2)
      have hidx : (splitLines (joinWith "\n" lines'))[n.toNat]? = some text := by
        rw [hsl, hl']
        have htk : ((splitLines c).take n.toNat).length = n.toNat := by
          rw [List.length_take]
          have : n.toNat ≤ (splitLines c).length := by omega
          omega
        rw [List.getElem?_append_right (by rw [htk])]
        rw [htk]
        simp
      rw [viewFileLines]
      simp only [List.getElem?_map, numberFrom_getElem, hidx, Option.map_some']
      rw [Nat.add_comm 1 n.toNat]
  · intro hcond
    simp [strReplaceExecute, hfile, hcond]

/-- Witness for C2: appending at the line count succeeds with the exact
message; an out-of-range index yields the exact error and no change. -/
theorem C2_insert_contract_witness :
    (strReplaceExecute ⟨[(["t.txt"], FSNode.file "l1\nl2")]⟩ "insert" "/t.txt"
        none none none (some "last") (some 2)).1 = "Text inserted at line 2 in /t.txt"
    ∧ strReplaceExecute ⟨[(["t.txt"], FSNode.file "l1\nl2")]⟩ "insert" "/t.txt"
        none none none (some "bad") (some 10)
      = ("Error: Invalid line number: 10. File has 2 lines.",
         ⟨[(["t.txt"], FSNode.file "l1\nl2")]⟩) := by
  constructor
  · have h := (C2_insert_contract ⟨[(["t.txt"], FSNode.file "l1\nl2")]⟩ "/t.txt"
      "l1\nl2" "last" 2 (by decide)).1 (by decide) (by decide) (by decide)
    rw [h.1]
    decide
  · have h := (C2_insert_contract ⟨[(["t.txt"], FSNode.file "l1\nl2")]⟩ "/t.txt"
      "l1\nl2" "bad" 10 (by decide)).2 (by decide)
    rw [h]
    decide

theorem properPrefixes_length_lt (x k : List String)
    (h : x ∈ properPrefixes k) : x.length < k.length := by
  obtain ⟨h1, h2, h3⟩ := (properPrefixes_mem x k).mp h
  have hd := keyStarts_append_drop x k h3
  cases he : k.drop x.length with
  | nil =>
    rw [he] at hd
    exact absurd (by simpa using hd) h2
  | cons y ys =>
    have : k.length = x.length + (k.drop x.length).length := by
      rw [← List.length_append, hd]
    rw [he] at this
    simp only [List.length_cons] at this
    omega

/-- Counterexample to claim C6 as stated: when the destination lies strictly
inside the source's own subtree the claim's conjuncts are contradictory
(`exists b` plus auto-created destination ancestors force `exists a`), and
the modelled `rename` indeed succeeds while the source path still exists:
renaming `/a` to `/a/b` recreates `/a` as an auto-created ancestor. -/
theorem C6_counterexample :
    ((⟨[(["a"], FSNode.directory)]⟩ : VirtualFileSystem).wellFormed = true)
    ∧ ((⟨[(["a"], FSNode.directory)]⟩ : VirtualFileSystem).existsPath "/a" = true)
    ∧ ((⟨[(["a"], FSNode.directory)]⟩ : VirtualFileSystem).existsPath "/a/b" = false)
    ∧ (fileManagerExecute ⟨[(["a"], FSNode.directory)]⟩ "rename" "/a" (some "/a/b")).1
        = FMResult.success "Successfully renamed /a to /a/b"
    ∧ ((fileManagerExecute ⟨[(["a"], FSNode.directory)]⟩ "rename" "/a" (some "/a/b")).2).existsPath
        "/a" = true := by
  decide

theorem renameEntries_eq (entries : List (List String × FSNode)) (ko kn : List String) :
    renameEntries entries ko kn
      = entries.filter (fun e => !(keyStarts ko e.1))
        ++ (missingAncestors (entries.filter fun e => !(keyStarts ko e.1)) kn).map
            (fun a => (a, FSNode.directory))
        ++ (entries.filter fun e => keyStarts ko e.1).map
            (fun e => (kn ++ e.1.drop ko.length, e.2)) := rfl

theorem findEntry_desc_none (entries l : List (List String × FSNode))
    (kn r : List String)
    (hsub : ∀ e ∈ l, e ∈ entries)
    (H1 : findEntry kn entries = none)
    (H2 : ∀ e ∈ entries, ∀ x ∈ properPrefixes e.1, (findEntry x entries).isSome = true)
    (H3 : kn ≠ []) :
    findEntry (kn ++ r) l = none := by
  rw [findEntry_eq_none_iff]
  intro e he heq
  have hemem := hsub e he
  cases r with
  | nil =>
    rw [List.append_nil] at heq
    have : (findEntry kn entries).isSome = true :=
      (findEntry_isSome_iff _ _).mpr ⟨e, hemem, heq⟩
    rw [H1] at this
    simp at this
  | cons r1 rs =>
    have hpp : kn ∈ properPrefixes e.1 := by
      apply (properPrefixes_mem _ _).mpr
      refine ⟨H3, ?_, by rw [heq]; exact keyStarts_self_append _ _⟩
      intro hcon
      have hlen := congrArg List.length (hcon.trans heq)
      simp only [List.length_append, List.length_cons] at hlen
      omega
    have := H2 e hemem kn hpp
    rw [H1] at this
    simp at this

/-- Claim C6 (amended): for a well-formed tree, an existing source `a` and a
non-existing destination `b` that is not inside the source's own subtree,
`rename` succeeds with the exact success message, after which `a` no longer
exists, `b` exists, every node of the moved subtree is found under `b` with
its node (hence a file's content) byte-identical, and every ancestor of the
destination exists (auto-created when missing); `rename` fails with the
uniform error message when the source is missing, the destination exists or
the source is the root, and with the dedicated message when `new_path` is
missing — all failures returning the tree unchanged.  (The original claim
had no restriction on `b`: for `b` strictly inside `a`'s subtree its
conjuncts are mutually contradictory, see the counterexample.) -/
theorem C6_rename_contract (fs : VirtualFileSystem) (a b : String)
    (hwf : fs.wellFormed = true)
    (hsrc : fs.existsPath a = true)
    (hdst : fs.existsPath b = false)
    (hnotdesc : keyStarts (pathSegments a) (pathSegments b) = false) :
    (∃ fs2, fileManagerExecute fs "rename" a (some b)
        = (FMResult.success ("Successfully renamed " ++ a ++ " to " ++ b), fs2)
      ∧ fs2.existsPath a = false
      ∧ fs2.existsPath b = true
      ∧ (∀ r n, findEntry (pathSegments a ++ r) fs.entries = some n →
          findEntry (pathSegments b ++ r) fs2.entries = some n)
      ∧ (∀ x ∈ properPrefixes (pathSegments b), (findEntry x fs2.entries).isSome = true))
    ∧ (∀ p2 q2 : String,
        (fs.existsPath p2 = false ∨ fs.existsPath q2 = true ∨ pathSegments p2 = []) →
        fileManagerExecute fs "rename" p2 (some q2)
          = (FMResult.failure ("Failed to rename " ++ p2 ++ " to " ++ q2), fs))
    ∧ (∀ p2 : String, fileManagerExecute fs "rename" p2 none
        = (FMResult.failure "new_path is required for rename command", fs)) := by
  obtain ⟨s, rest, hka⟩ : ∃ s rest, pathSegments a = s :: rest := by
    cases hka : pathSegments a with
    | nil => rw [hka] at hnotdesc; simp [keyStarts] at hnotdesc
    | cons s rest => exact ⟨s, rest, rfl⟩
  obtain ⟨t, ts, hkb⟩ : ∃ t ts, pathSegments b = t :: ts := by
    cases hkb : pathSegments b with
    | nil => simp [VirtualFileSystem.existsPath, VirtualFileSystem.getNode, hkb] at hdst
    | cons t ts => exact ⟨t, ts, rfl⟩
  have hnd : keyStarts (s :: rest) (t :: ts) = false := by
    rw [← hka, ← hkb]
    exact hnotdesc
  obtain ⟨n0, hn0⟩ : ∃ n0, findEntry (s :: rest) fs.entries = some n0 := by
    have h := hsrc
    simp only [VirtualFileSystem.existsPath, VirtualFileSystem.getNode, hka] at h
    exact Option.isSome_iff_exists.mp h
  have hkn_none : findEntry (t :: ts) fs.entries = none := by
    have h := hdst
    simp only [VirtualFileSystem.existsPath, VirtualFileSystem.getNode, hkb] at h
    cases hv : findEntry (t :: ts) fs.entries with
    | none => rfl
    | some m => rw [hv] at h; simp at h
  have hanccl : ∀ e ∈ fs.entries, ∀ x ∈ properPrefixes e.1,
      (findEntry x fs.entries).isSome = true :=
    fun e he x hx => (wf_entry fs hwf e he).2.2 x hx
  refine ⟨?_, ?_, ?_⟩
  · -- success case
    refine ⟨⟨renameEntries fs.entries (s :: rest) (t :: ts)⟩, ?_, ?_, ?_, ?_, ?_⟩
    · have hmove : fs.move a b
          = some ⟨renameEntries fs.entries (s :: rest) (t :: ts)⟩ := by
        simp [VirtualFileSystem.move, hka, hkb, hn0, hdst]
      simp [fileManagerExecute, hmove]
    · -- source gone
      have hko_gone : findEntry (s :: rest)
          (renameEntries fs.entries (s :: rest) (t :: ts)) = none := by
        rw [renameEntries_eq]
        have h1 : findEntry (s :: rest)
            (fs.entries.filter fun e => !(keyStarts (s :: rest) e.1)) = none := by
          rw [findEntry_eq_none_iff]
          intro e he heq
          have hp := (List.mem_filter.mp he).2
          rw [heq, keyStarts_refl] at hp
          simp at hp
        have h2 : findEntry (s :: rest)
            ((missingAncestors (fs.entries.filter fun e => !(keyStarts (s :: rest) e.1))
              (t :: ts)).map fun x => (x, FSNode.directory)) = none := by
          rw [findEntry_eq_none_iff]
          intro e he heq
          obtain ⟨x, hx, hxe⟩ := List.mem_map.mp he
          have he1 : e.1 = x := by rw [← hxe]
          have hxp := (List.mem_filter.mp hx).1
          obtain ⟨hx1, hx2, hx3⟩ := (properPrefixes_mem x (t :: ts)).mp hxp
          have hxs : x = s :: rest := he1.symm.trans heq
          rw [hxs] at hx3
          have := hx3.symm.trans hnd
          simp at this
        have h3 : findEntry (s :: rest)
            ((fs.entries.filter fun e => keyStarts (s :: rest) e.1).map
              fun e => ((t :: ts) ++ e.1.drop (s :: rest).length, e.2)) = none := by
          rw [findEntry_eq_none_iff]
          intro e' he' heq
          obtain ⟨e, he, hee⟩ := List.mem_map.mp he'
          have he1 : e'.1 = (t :: ts) ++ e.1.drop (s :: rest).length := by rw [← hee]
          have heq2 : (t :: ts) ++ e.1.drop (s :: rest).length = s :: rest :=
            he1.symm.trans heq
          cases hdr : e.1.drop (s :: rest).length with
          | nil =>
            rw [hdr, List.append_nil] at heq2
            have hks : keyStarts (s :: rest) (t :: ts) = true := by
              rw [heq2]
              exact keyStarts_refl _
            have := hks.symm.trans hnd
            simp at this
          | cons d ds =>
            rw [hdr] at heq2
            have hpp : (t :: ts) ∈ properPrefixes (s :: rest) := by
              apply (properPrefixes_mem _ _).mpr
              refine ⟨by simp, ?_, ?_⟩
              · intro hcon
                have hlen := congrArg List.length heq2
                have hlen2 := congrArg List.length hcon
                simp only [List.length_append, List.length_cons] at hlen hlen2
                omega
              · rw [← heq2]
                exact keyStarts_self_append _ _
            have h4 := hanccl (s :: rest, n0) (findEntry_mem _ _ _ hn0) (t :: ts) hpp
            rw [hkn_none] at h4
            simp at h4
        rw [findEntry_append_right _ _ _
          (by rw [findEntry_append_right _ _ _ h1]; exact h2)]
        exact h3
      simp only [VirtualFileSystem.existsPath, VirtualFileSystem.getNode, hka, hko_gone]
      rfl
    · -- destination exists
      have hfull0 : findEntry ((t :: ts) ++ ([] : List String))
          (renameEntries fs.entries (s :: rest) (t :: ts))
          = findEntry ((s :: rest) ++ ([] : List String)) fs.entries := by
        rw [renameEntries_eq]
        have h1 : findEntry ((t :: ts) ++ ([] : List String))
            (fs.entries.filter fun e => !(keyStarts (s :: rest) e.1)) = none :=
          findEntry_desc_none fs.entries _ (t :: ts) []
            (fun e he => List.mem_of_mem_filter he) hkn_none hanccl (by simp)
        have h2 : findEntry ((t :: ts) ++ ([] : List String))
            ((missingAncestors (fs.entries.filter fun e => !(keyStarts (s :: rest) e.1))
              (t :: ts)).map fun x => (x, FSNode.directory)) = none := by
          rw [findEntry_eq_none_iff]
          intro e he heq
          obtain ⟨x, hx, hxe⟩ := List.mem_map.mp he
          have he1 : e.1 = x := by rw [← hxe]
          have hxp := (List.mem_filter.mp hx).1
          have hlt := properPrefixes_length_lt x (t :: ts) hxp
          have hlen := congrArg List.length (he1.symm.trans heq)
          simp only [List.length_append] at hlen
          omega
        rw [findEntry_append_right _ _ _
          (by rw [findEntry_append_right _ _ _ h1]; exact h2)]
        rw [findEntry_map_rebase (s :: rest) (t :: ts) []
          _ (fun e he => (List.mem_filter.mp he).2)]
        exact findEntry_filterKey _ _ _ (keyStarts_self_append _ _)
      simp only [List.append_nil] at hfull0
      simp only [VirtualFileSystem.existsPath, VirtualFileSystem.getNode, hkb]
      rw [hfull0, hn0]
      rfl
    · -- subtree relocated, nodes preserved
      intro r n hfind
      rw [hka] at hfind
      rw [hkb]
      show findEntry ((t :: ts) ++ r) (renameEntries fs.entries (s :: rest) (t :: ts))
        = some n
      rw [renameEntries_eq]
      have h1 : findEntry ((t :: ts) ++ r)
          (fs.entries.filter fun e => !(keyStarts (s :: rest) e.1)) = none :=
        findEntry_desc_none fs.entries _ (t :: ts) r
          (fun e he => List.mem_of_mem_filter he) hkn_none hanccl (by simp)
      have h2 : findEntry ((t :: ts) ++ r)
          ((missingAncestors (fs.entries.filter fun e => !(keyStarts (s :: rest) e.1))
            (t :: ts)).map fun x => (x, FSNode.directory)) = none := by
        rw [findEntry_eq_none_iff]
        intro e he heq
        obtain ⟨x, hx, hxe⟩ := List.mem_map.mp he
        have he1 : e.1 = x := by rw [← hxe]
        have hxp := (List.mem_filter.mp hx).1
        have hlt := properPrefixes_length_lt x (t :: ts) hxp
        have hlen := congrArg List.length (he1.symm.trans heq)
        simp only [List.length_append] at hlen
        omega
      rw [findEntry_append_right _ _ _
        (by rw [findEntry_append_right _ _ _ h1]; exact h2)]
      rw [findEntry_map_rebase (s :: rest) (t :: ts) r
        _ (fun e he => (List.mem_filter.mp he).2)]
      rw [findEntry_filterKey _ _ _ (keyStarts_self_append _ _)]
      exact hfind
    · -- destination ancestors all exist
      intro x hx
      rw [hkb] at hx
      show (findEntry x (renameEntries fs.entries (s :: rest) (t :: ts))).isSome = true
      rw [renameEntries_eq]
      by_cases hxk : ∃ m, findEntry x
          (fs.entries.filter fun e => !(keyStarts (s :: rest) e.1)) = some m
      · obtain ⟨m, hm⟩ := hxk
        rw [findEntry_append_left _ _ _ m (findEntry_append_left _ _ _ m hm)]
        rfl
      · have hxnone : findEntry x
            (fs.entries.filter fun e => !(keyStarts (s :: rest) e.1)) = none := by
          cases hv : findEntry x
              (fs.entries.filter fun e => !(keyStarts (s :: rest) e.1)) with
          | none => rfl
          | some m => exact absurd ⟨m, hv⟩ hxk
        have hxmiss : x ∈ missingAncestors
            (fs.entries.filter fun e => !(keyStarts (s :: rest) e.1)) (t :: ts) := by
          rw [missingAncestors, List.mem_filter]
          exact ⟨hx, by rw [hxnone]; rfl⟩
        obtain ⟨m, hm⟩ := Option.isSome_iff_exists.mp (findEntry_map_dir x _ hxmiss)
        have h2 : findEntry x
            ((fs.entries.filter fun e => !(keyStarts (s :: rest) e.1))
              ++ (missingAncestors (fs.entries.filter fun e => !(keyStarts (s :: rest) e.1))
                (t :: ts)).map fun y => (y, FSNode.directory)) = some m := by
          rw [findEntry_append_right _ _ _ hxnone]
          exact hm
        rw [findEntry_append_left _ _ _ m h2]
        rfl
  · -- uniform move failures
    intro p2 q2 h
    rcases h with h | h | h
    · cases hk : pathSegments p2 with
      | nil => simp [VirtualFileSystem.existsPath, VirtualFileSystem.getNode, hk] at h
      | cons u us =>
        have hfe : (findEntry (u :: us) fs.entries).isNone = true := by
          have h2 := h
          simp only [VirtualFileSystem.existsPath, VirtualFileSystem.getNode, hk] at h2
          cases hv : findEntry (u :: us) fs.entries with
          | none => rfl
          | some m => rw [hv] at h2; simp at h2
        simp [fileManagerExecute, VirtualFileSystem.move, hk, hfe]
    · cases hk : pathSegments p2 with
      | nil => simp [fileManagerExecute, VirtualFileSystem.move, hk]
      | cons u us => simp [fileManagerExecute, VirtualFileSystem.move, hk, h]
    · simp [fileManagerExecute, VirtualFileSystem.move, h]
  · intro p2
    rfl

/-- Witness for C6: renaming the directory of a concrete four-node tree
relocates it with its deep file content intact. -/
theorem C6_rename_contract_witness :
    (fileManagerExecute ⟨[(["src"], FSNode.directory),
        (["src", "index.ts"], FSNode.file "index"),
        (["src", "components"], FSNode.directory),
        (["src", "components", "Button.tsx"], FSNode.file "button")]⟩
      "rename" "/src" (some "/app")).1
        = FMResult.success "Successfully renamed /src to /app"
    ∧ ((fileManagerExecute ⟨[(["src"], FSNode.directory),
        (["src", "index.ts"], FSNode.file "index"),
        (["src", "components"], FSNode.directory),
        (["src", "components", "Button.tsx"], FSNode.file "button")]⟩
      "rename" "/src" (some "/app")).2).existsPath "/src" = false
    ∧ findEntry (pathSegments "/app" ++ ["components", "Button.tsx"])
        ((fileManagerExecute ⟨[(["src"], FSNode.directory),
          (["src", "index.ts"], FSNode.file "index"),
          (["src", "components"], FSNode.directory),
          (["src", "components", "Button.tsx"], FSNode.file "button")]⟩
        "rename" "/src" (some "/app")).2).entries = some (FSNode.file "button") := by
  obtain ⟨fs2, hres, h1, h2, h3, h4⟩ := (C6_rename_contract ⟨[(["src"], FSNode.directory),
    (["src", "index.ts"], FSNode.file "index"),
    (["src", "components"], FSNode.directory),
    (["src", "components", "Button.tsx"], FSNode.file "button")]⟩
    "/src" "/app" (by decide) (by decide) (by decide) (by decide)).1
  refine ⟨by rw [hres]; rfl, by rw [hres]; exact h1, ?_⟩
  rw [hres]
  exact h3 ["components", "Button.tsx"] (FSNode.file "button") (by decide)

/-- Claim C9: path arguments differing only in normalization address the same
node — a missing leading slash is immaterial and duplicate separators
collapse, so `test.txt` equals `/test.txt` and `//src//test.txt` addresses
`/src/test.txt` — every operation resolving through the same normalized key,
while success and failure messages echo the caller's raw path string
verbatim. -/
theorem C9_path_normalization :
    pathSegments "test.txt" = pathSegments "/test.txt"
    ∧ normalizePath "//src//test.txt" = "/src/test.txt"
    ∧ pathSegments "//src//test.txt" = pathSegments "/src/test.txt"
    ∧ (∀ (fs : VirtualFileSystem) (p q : String), pathSegments p = pathSegments q →
        fs.getNode p = fs.getNode q ∧ fs.existsPath p = fs.existsPath q
          ∧ fs.readFile p = fs.readFile q)
    ∧ (∀ (fs : VirtualFileSystem) (p : String) (ft : Option String),
        fs.existsPath p = false →
        (strReplaceExecute fs "create" p none ft none none none).1
          = "File created: " ++ p)
    ∧ (∀ (fs : VirtualFileSystem) (p np : String),
        (fileManagerExecute fs "delete" p (some np)).1
            = FMResult.success ("Successfully deleted " ++ p)
        ∨ (fileManagerExecute fs "delete" p (some np)).1
            = FMResult.failure ("Failed to delete " ++ p)) := by
  refine ⟨by decide, by decide, by decide, ?_, ?_, ?_⟩
  · intro fs p q h
    have hg : fs.getNode p = fs.getNode q := by
      simp only [VirtualFileSystem.getNode, h]
    refine ⟨hg, ?_, ?_⟩
    · simp only [VirtualFileSystem.existsPath, hg]
    · simp only [VirtualFileSystem.readFile, hg]
  · intro fs p ft hex
    cases hk : pathSegments p with
    | nil => simp [VirtualFileSystem.existsPath, VirtualFileSystem.getNode, hk] at hex
    | cons s rest =>
      have hfe : findEntry (s :: rest) fs.entries = none := by
        have h := hex
        simp only [VirtualFileSystem.existsPath, VirtualFileSystem.getNode, hk] at h
        cases hv : findEntry (s :: rest) fs.entries with
        | none => rfl
        | some n => rw [hv] at h; simp at h
      simp [strReplaceExecute, VirtualFileSystem.createFile, hk, hfe]
  · intro fs p np
    cases hd : fs.deleteNode p with
    | none =>
      right
      simp [fileManagerExecute, hd]
    | some fs' =>
      left
      simp [fileManagerExecute, hd]

/-- Witness for C9: on a concrete tree the un-slashed and the slashed path
resolve to the same node. -/
theorem C9_path_normalization_witness :
    (⟨[(["test.txt"], FSNode.file "c")]⟩ : VirtualFileSystem).getNode "test.txt"
      = (⟨[(["test.txt"], FSNode.file "c")]⟩ : VirtualFileSystem).getNode "/test.txt" :=
  (C9_path_normalization.2.2.2.1 ⟨[(["test.txt"], FSNode.file "c")]⟩
    "test.txt" "/test.txt" (by decide)).1

/-- Claim C8: for every well-formed tree, `serialize` produces the flat
path-to-descriptor mapping and `deserialize` of that mapping rebuilds the
very same tree, so `readFile` and `list` agree with the original on every
path — the round trip is lossless. -/
theorem C8_serialize_roundtrip (fs : VirtualFileSystem)
    (hwf : fs.wellFormed = true) :
    VirtualFileSystem.deserialize fs.serialize = fs
    ∧ (∀ p, (VirtualFileSystem.deserialize fs.serialize).readFile p = fs.readFile p)
    ∧ (∀ p, (VirtualFileSystem.deserialize fs.serialize).list p = fs.list p) := by
  obtain ⟨entries⟩ := fs
  have hmain : VirtualFileSystem.deserialize
      (VirtualFileSystem.mk entries).serialize = ⟨entries⟩ := by
    simp only [VirtualFileSystem.serialize, VirtualFileSystem.deserialize]
    congr 1
    rw [List.filterMap_cons]
    show List.filterMap _ (entries.map fun e => (joinPath e.1, nodeDescriptor e.1 e.2))
      = entries
    rw [List.filterMap_map]
    apply filterMap_eq_self
    intro e he
    obtain ⟨k, n⟩ := e
    have hwfe := wf_entry ⟨entries⟩ hwf (k, n) he
    have hseg : pathSegments (joinPath k) = k :=
      pathSegments_joinPath k hwfe.1 hwfe.2.1
    show (match pathSegments (joinPath k) with
      | [] => none
      | s :: rest => some (s :: rest,
          if (nodeDescriptor k n).type = "file"
          then FSNode.file ((nodeDescriptor k n).content.getD "")
          else FSNode.directory)) = some (k, n)
    rw [hseg]
    cases k with
    | nil => exact absurd rfl hwfe.1
    | cons k0 ks =>
      cases n with
      | file c => simp [nodeDescriptor]
      | directory => simp [nodeDescriptor]
  exact ⟨hmain, fun p => by rw [hmain], fun p => by rw [hmain]⟩

/-- Witness for C8: the round trip is the identity on a concrete four-node
tree, and reading a deep file through the round-tripped tree agrees. -/
theorem C8_serialize_roundtrip_witness :
    VirtualFileSystem.deserialize
      (VirtualFileSystem.mk [(["src"], FSNode.directory),
        (["src", "App.jsx"], FSNode.file "export default 1"),
        (["src", "components"], FSNode.directory),
        (["src", "components", "Button.jsx"], FSNode.file "button")]).serialize
      = ⟨[(["src"], FSNode.directory),
        (["src", "App.jsx"], FSNode.file "export default 1"),
        (["src", "components"], FSNode.directory),
        (["src", "components", "Button.jsx"], FSNode.file "button")]⟩
    ∧ (VirtualFileSystem.deserialize
        (VirtualFileSystem.mk [(["src"], FSNode.directory),
          (["src", "App.jsx"], FSNode.file "export default 1"),
          (["src", "components"], FSNode.directory),
          (["src", "components", "Button.jsx"], FSNode.file "button")]).serialize).readFile
        "/src/components/Button.jsx"
      = (VirtualFileSystem.mk [(["src"], FSNode.directory),
          (["src", "App.jsx"], FSNode.file "export default 1"),
          (["src", "components"], FSNode.directory),
          (["src", "components", "Button.jsx"], FSNode.file "button")]).readFile
        "/src/components/Button.jsx" := by
  have h := C8_serialize_roundtrip (VirtualFileSystem.mk [(["src"], FSNode.directory),
    (["src", "App.jsx"], FSNode.file "export default 1"),
    (["src", "components"], FSNode.directory),
    (["src", "components", "Button.jsx"], FSNode.file "button")]) (by decide)
  exact ⟨h.1, h.2.1 "/src/components/Button.jsx"⟩
